import Mathlib

/-!
Shallow embedding of the leaderboard core of `src/server.py`
(`class ScoresServer`): the two insertion-ordered dicts `self.scores`
(score → user) and `self.users` (user → score), and the operations
`add_score`, `sort_scores`, `get_rank`, `get_all_scores`.

Python dicts are modelled as association lists that preserve insertion
order (`List (κ × ν)`); `d.get(k)` is `dget`, `d[k] = v` is `dset`
(update in place when the key is present, append otherwise), `del d[k]`
is `ddel` (removal of the key's entry, order of the rest preserved).
`list(d)` is `d.map Prod.fst`, `list(d)[-1]` is `getLast?` of the keys;
the `IndexError` this raises on an empty dict is the one fault modelled:
`add_score` returns `Option`, `none` exactly on that access.

Scores are `Nat` (validated upstream by the pattern `^[1-9]\d*$` to be
positive integers); user names are `String`. HTTP transport, JSON and the
validator are outside the modelled core, but the structured fields of the
responses built in `add_score` (the `status` string, the HTTP status code
and the `score` object, everything except the free-text `message`) are
modelled by `renderSubmit`.
-/

/-- `d.get(k)` on a Python dict modelled as an ordered association list:
the value of the first (with unique keys: the only) pair with key `k`. -/
def dget {α β : Type} [DecidableEq α] (d : List (α × β)) (k : α) : Option β :=
  match d with
  | [] => none
  | (k', v) :: t => if k' = k then some v else dget t k

/-- `d[k] = v` on a Python dict: update the value in place when `k` is
already a key, append the pair `(k, v)` otherwise. -/
def dset {α β : Type} [DecidableEq α] (d : List (α × β)) (k : α) (v : β) :
    List (α × β) :=
  if k ∈ d.map Prod.fst then
    d.map (fun p => if p.1 = k then (k, v) else p)
  else d ++ [(k, v)]

/-- `del d[k]` on a Python dict: remove the entry with key `k`, keeping
the order of the remaining entries. -/
def ddel {α β : Type} [DecidableEq α] (d : List (α × β)) (k : α) :
    List (α × β) :=
  d.filter (fun p => decide (p.1 ≠ k))

/-- The state of `ScoresServer` (`__init__`, lines 8-17 of
`src/server.py`): the capacity `highscore_table_limit` and the two dicts
`scores : {score: user}` and `users : {user: score}`. The Flask `app`,
`host` and `port` fields play no part in the store's logic and are
omitted. -/
structure ScoresServer where
  highscore_table_limit : Nat
  scores : List (Nat × String)
  users : List (String × Nat)
deriving DecidableEq, Repr

/-- The freshly constructed server: both dicts empty. -/
def ScoresServer.init (limit : Nat) : ScoresServer :=
  { highscore_table_limit := limit, scores := [], users := [] }

/-- The four outcomes `add_score` can return (the four `Response`s built
at lines 138-143, 154-159, 165-170 and 182-187 of `src/server.py`).
`added` records in `extraPrev` the previous score mentioned by
`extra_msg` when a user improves their own score. -/
inductive Outcome where
  | claimedByOther (holder : String) (score : Nat)
  | notPersonalBest (user : String) (prev : Nat)
  | leaderboardFull (limit : Nat) (threshold : Nat)
  | added (user : String) (score : Nat) (extraPrev : Option Nat)
deriving DecidableEq, Repr

/-- `sort_scores` (lines 189-195): rebuild the `scores` dict with its
keys in descending order (`sorted(self.scores, reverse=True)`), each key
keeping its value (`self.scores[k]`). On the duplicate-free key lists a
dict yields, every sorting algorithm returns the same (unique
non-increasing) arrangement, so modelling Python's Timsort by insertion
sort is exact. -/
def ScoresServer.sort_scores (scores : List (Nat × String)) :
    List (Nat × String) :=
  (List.insertionSort (fun a b : Nat => b ≤ a) (scores.map Prod.fst)).filterMap
    (fun k => (dget scores k).map (fun v => (k, v)))

/-- The final insertion step of `add_score` (lines 178-187): set
`users[name] = score`, `scores[score] = name`, re-sort the scores dict
and answer with the success response. -/
def ScoresServer.finishInsert (st : ScoresServer) (name : String)
    (score : Nat) (extraPrev : Option Nat) :
    Option (Outcome × ScoresServer) :=
  some (Outcome.added name score extraPrev,
    { highscore_table_limit := st.highscore_table_limit,
      scores := ScoresServer.sort_scores (dset st.scores score name),
      users := dset st.users name score })

/-- The capacity check and eviction of `add_score` (lines 161-176): when
the scores dict is at `highscore_table_limit`, look up the last key
`list(self.scores)[-1]` (the lowest score once the dict is sorted;
`none` models the `IndexError` this raises on an empty dict), reject
when it beats the submitted score, and otherwise evict its holder before
inserting. -/
def ScoresServer.capacityInsert (st : ScoresServer) (name : String)
    (score : Nat) (extraPrev : Option Nat) :
    Option (Outcome × ScoresServer) :=
  if st.scores.length = st.highscore_table_limit then
    match (st.scores.map Prod.fst).getLast? with
    | none => none
    | some lowest_highscore =>
      if lowest_highscore > score then
        some (Outcome.leaderboardFull st.highscore_table_limit
          lowest_highscore, st)
      else
        let users' := match dget st.scores lowest_highscore with
          | some lowest_user => ddel st.users lowest_user
          | none => st.users
        ScoresServer.finishInsert
          { highscore_table_limit := st.highscore_table_limit,
            scores := ddel st.scores lowest_highscore,
            users := users' } name score extraPrev
  else ScoresServer.finishInsert st name score extraPrev

/-- The personal-best check of `add_score` (lines 145-159): when the
user already has a truthy previous score (`if prev_score:` — a stored
score of `0` would be falsy), either reject a non-improvement or delete
both old mappings before inserting. -/
def ScoresServer.prevCheck (st : ScoresServer) (name : String)
    (score : Nat) : Option (Outcome × ScoresServer) :=
  match dget st.users name with
  | some prev_score =>
    if prev_score ≠ 0 then
      if score > prev_score then
        ScoresServer.capacityInsert
          { highscore_table_limit := st.highscore_table_limit,
            scores := ddel st.scores prev_score,
            users := ddel st.users name } name score (some prev_score)
      else some (Outcome.notPersonalBest name prev_score, st)
    else ScoresServer.capacityInsert st name score none
  | none => ScoresServer.capacityInsert st name score none

/-- `add_score` (lines 96-187 of `src/server.py`), after the request has
passed validation: the claimed-by-other check on `scores.get(score)`,
then `prevCheck`, `capacityInsert` and `finishInsert` above. Returns the
outcome together with the resulting state; `none` models the
`IndexError` of `list(self.scores)[-1]` on an empty dict. -/
def ScoresServer.add_score (st : ScoresServer) (name : String)
    (score : Nat) : Option (Outcome × ScoresServer) :=
  match dget st.scores score with
  | some user =>
    if user ≠ name then some (Outcome.claimedByOther user score, st)
    else ScoresServer.prevCheck st name score
  | none => ScoresServer.prevCheck st name score

/-- The outcomes of `get_rank` (lines 197-233): the two 404 shapes — the
`rank must be 1 or greater` rejection, which carries no count, and the
`rank {rank} could not be found, there are only {n} scores` rejection,
which carries the entry count — and the success carrying the entry at
the rank. -/
inductive RankOutcome where
  | notFoundLow
  | notFoundHigh (rank : Int) (count : Nat)
  | found (user : String) (score : Nat)
deriving DecidableEq, Repr

/-- `get_rank` (lines 197-233): reject `rank <= 0`; reject a rank beyond
the entry count; otherwise index `list(self.scores)` at `rank - 1` and
look the user up. The method only reads the state, so it is modelled as
a pure function of it; the `getD` defaults are never reached (the index
is in bounds and the indexed score is a key). -/
def ScoresServer.get_rank (st : ScoresServer) (rank : Int) : RankOutcome :=
  if rank ≤ 0 then RankOutcome.notFoundLow
  else
    let score_list := st.scores.map Prod.fst
    let scores_length := score_list.length
    if (scores_length : Int) < rank then
      RankOutcome.notFoundHigh rank scores_length
    else
      let score := score_list.getD (rank - 1).toNat 0
      RankOutcome.found ((dget st.scores score).getD "") score

/-- `get_all_scores` (lines 235-244): the response body serializes
`self.scores` as-is, i.e. the stored (score, user) pairs in the dict's
current order. The method only reads the state. -/
def ScoresServer.get_all_scores (st : ScoresServer) :
    List (Nat × String) :=
  st.scores

/-- The structured (non-message) fields of a `/scores/` POST response:
the `status` JSON field, the HTTP status code and the optional `score`
JSON object with its `user` and `score` fields. -/
structure SubmitResponseData where
  status : String
  httpStatus : Nat
  score : Option (String × Nat)
deriving DecidableEq, Repr

/-- The structured fields of the response `add_score` builds for each
outcome (lines 138-143, 154-159, 165-170, 182-187): every outcome is
sent with `"status": "success"` and HTTP 200; the `score` object holds
the incumbent for `claimedByOther`, the previous score for
`notPersonalBest`, the stored entry on success, and is absent from the
leaderboard-full response. -/
def renderSubmit : Outcome → SubmitResponseData
  | Outcome.claimedByOther holder score =>
    { status := "success", httpStatus := 200, score := some (holder, score) }
  | Outcome.notPersonalBest user prev =>
    { status := "success", httpStatus := 200, score := some (user, prev) }
  | Outcome.leaderboardFull _ _ =>
    { status := "success", httpStatus := 200, score := none }
  | Outcome.added user score _ =>
    { status := "success", httpStatus := 200, score := some (user, score) }

/-- The states reachable from a freshly constructed server by submit
operations that passed the validator (whose pattern `^[1-9]\d*$` forces
`1 ≤ score`). Rejected submissions return the unchanged state and are
covered by the same constructor; a faulting submission (`none`) yields
no new state. -/
inductive Reachable : ScoresServer → Prop where
  | init (limit : Nat) : Reachable (ScoresServer.init limit)
  | step {st st' : ScoresServer} {name : String} {score : Nat}
      {out : Outcome} : Reachable st → 1 ≤ score →
      ScoresServer.add_score st name score = some (out, st') →
      Reachable st'

/-- The structural part of the store invariant: the users dict has
duplicate-free keys, the scores dict is sorted strictly descending
(hence has duplicate-free keys too, and `list(self.scores)[-1]` is its
minimum), the two dicts are mutually inverse, and every stored score is
positive (guaranteed by the validator pattern `^[1-9]\d*$`). -/
structure GoodMaps (st : ScoresServer) : Prop where
  nodupUsers : (st.users.map Prod.fst).Nodup
  sorted : List.Pairwise (fun a b : Nat × String => b.1 < a.1) st.scores
  inv₁ : ∀ p ∈ st.scores, (p.2, p.1) ∈ st.users
  inv₂ : ∀ p ∈ st.users, (p.2, p.1) ∈ st.scores
  pos : ∀ p ∈ st.scores, 1 ≤ p.1

/-- The full store invariant: `GoodMaps` plus the capacity bound. -/
structure StoreInv (st : ScoresServer) extends GoodMaps st : Prop where
  card_le : st.scores.length ≤ st.highscore_table_limit

instance : IsTotal Nat (fun a b : Nat => b ≤ a) :=
  ⟨fun a b => le_total b a⟩

instance : IsTrans Nat (fun a b : Nat => b ≤ a) :=
  ⟨fun _ _ _ h₁ h₂ => le_trans h₂ h₁⟩

/-- The entry-count ("valid range") information a `get_rank` outcome
carries in its structured data: only the beyond-the-count rejection
carries the count; the rank-below-1 rejection and the success carry
none. -/
def RankOutcome.carriedRange : RankOutcome → Option Nat
  | RankOutcome.notFoundLow => none
  | RankOutcome.notFoundHigh _ n => some n
  | RankOutcome.found _ _ => none

/-- The spec §8 example state after Submit(alice, 10) on a fresh server
of capacity 2. -/
def exampleState1 : ScoresServer := ⟨2, [(10, "alice")], [("alice", 10)]⟩

/-- The spec §8 example state {alice: 10, bob: 5}, at capacity 2: full. -/
def exampleState2 : ScoresServer :=
  ⟨2, [(10, "alice"), (5, "bob")], [("alice", 10), ("bob", 5)]⟩

example :
    ScoresServer.add_score (ScoresServer.init 2) "alice" 10 =
      some (Outcome.added "alice" 10 none,
        ⟨2, [(10, "alice")], [("alice", 10)]⟩) := by decide

example :
    ScoresServer.add_score ⟨2, [(10, "alice")], [("alice", 10)]⟩ "bob" 5 =
      some (Outcome.added "bob" 5 none,
        ⟨2, [(10, "alice"), (5, "bob")], [("alice", 10), ("bob", 5)]⟩) := by
  decide

example :
    ScoresServer.add_score
        ⟨2, [(10, "alice"), (5, "bob")], [("alice", 10), ("bob", 5)]⟩
        "carol" 3 =
      some (Outcome.leaderboardFull 2 5,
        ⟨2, [(10, "alice"), (5, "bob")], [("alice", 10), ("bob", 5)]⟩) := by
  decide

example :
    ScoresServer.add_score
        ⟨2, [(10, "alice"), (5, "bob")], [("alice", 10), ("bob", 5)]⟩
        "carol" 7 =
      some (Outcome.added "carol" 7 none,
        ⟨2, [(10, "alice"), (7, "carol")], [("alice", 10), ("carol", 7)]⟩) := by
  decide

example :
    ScoresServer.add_score
        ⟨2, [(10, "alice"), (7, "carol")], [("alice", 10), ("carol", 7)]⟩
        "alice" 8 =
      some (Outcome.notPersonalBest "alice" 10,
        ⟨2, [(10, "alice"), (7, "carol")], [("alice", 10), ("carol", 7)]⟩) := by
  decide

example :
    ScoresServer.get_rank
        ⟨2, [(10, "alice"), (7, "carol")], [("alice", 10), ("carol", 7)]⟩ 1 =
      RankOutcome.found "alice" 10 := by decide

example :
    ScoresServer.get_rank
        ⟨2, [(10, "alice"), (7, "carol")], [("alice", 10), ("carol", 7)]⟩ 3 =
      RankOutcome.notFoundHigh 3 2 := by decide

example : ScoresServer.add_score (ScoresServer.init 0) "alice" 10 = none := by
  decide

example :
    ScoresServer.add_score ⟨5, [(3, "alice"), (2, "bob")], [("alice", 3), ("bob", 2)]⟩
        "alice" 9 =
      some (Outcome.added "alice" 9 (some 3),
        ⟨5, [(9, "alice"), (2, "bob")], [("bob", 2), ("alice", 9)]⟩) := by
  decide

theorem dget_mem {α β : Type} [DecidableEq α] {d : List (α × β)} {k : α}
    {v : β} (h : dget d k = some v) : (k, v) ∈ d := by
  induction d with
  | nil => simp [dget] at h
  | cons p t ih =>
    obtain ⟨k1, v1⟩ := p
    by_cases hk : k1 = k
    · subst hk
      simp [dget] at h
      simp [h]
    · simp [dget, hk] at h
      exact List.mem_cons_of_mem _ (ih h)

theorem dget_eq_none_iff {α β : Type} [DecidableEq α] {d : List (α × β)}
    {k : α} : dget d k = none ↔ k ∉ d.map Prod.fst := by
  induction d with
  | nil => simp [dget]
  | cons p t ih =>
    obtain ⟨k1, v1⟩ := p
    by_cases hk : k1 = k
    · subst hk; simp [dget]
    · simp [dget, hk, ih, Ne.symm hk]

theorem dget_eq_some_of_mem {α β : Type} [DecidableEq α] {d : List (α × β)}
    {k : α} {v : β} (hnd : (d.map Prod.fst).Nodup) (hm : (k, v) ∈ d) :
    dget d k = some v := by
  induction d with
  | nil => simp at hm
  | cons p t ih =>
    obtain ⟨k1, v1⟩ := p
    simp only [List.map_cons, List.nodup_cons] at hnd
    rcases List.mem_cons.1 hm with heq | hmem
    · cases heq
      simp [dget]
    · have hk : k1 ≠ k := by
        intro hkk
        subst hkk
        exact hnd.1 (List.mem_map.2 ⟨(k1, v), hmem, rfl⟩)
      simp [dget, hk]
      exact ih hnd.2 hmem

theorem dget_val_unique {α β : Type} [DecidableEq α] {d : List (α × β)}
    {k : α} {v1 v2 : β} (hnd : (d.map Prod.fst).Nodup) (h1 : (k, v1) ∈ d)
    (h2 : (k, v2) ∈ d) : v1 = v2 := by
  have e1 := dget_eq_some_of_mem hnd h1
  have e2 := dget_eq_some_of_mem hnd h2
  rw [e1] at e2
  exact Option.some.inj e2

theorem mem_ddel {α β : Type} [DecidableEq α] {d : List (α × β)} {k : α}
    {p : α × β} : p ∈ ddel d k ↔ p ∈ d ∧ p.1 ≠ k := by
  simp [ddel, List.mem_filter]

theorem ddel_keys_sublist {α β : Type} [DecidableEq α] (d : List (α × β))
    (k : α) : List.Sublist ((ddel d k).map Prod.fst) (d.map Prod.fst) :=
  (List.filter_sublist d).map Prod.fst

theorem ddel_eq_self_of_not_mem {α β : Type} [DecidableEq α]
    {d : List (α × β)} {k : α} (h : k ∉ d.map Prod.fst) : ddel d k = d := by
  rw [ddel, List.filter_eq_self]
  intro p hp
  simp only [decide_eq_true_eq]
  intro hpk
  exact h (List.mem_map.2 ⟨p, hp, hpk⟩)

theorem length_ddel {α β : Type} [DecidableEq α] {d : List (α × β)} {k : α}
    (hnd : (d.map Prod.fst).Nodup) (hk : k ∈ d.map Prod.fst) :
    (ddel d k).length + 1 = d.length := by
  induction d with
  | nil => simp at hk
  | cons p t ih =>
    obtain ⟨k1, v1⟩ := p
    simp only [List.map_cons, List.nodup_cons] at hnd
    rcases List.mem_cons.1 hk with heq | hmem
    · subst heq
      have h1 : ddel ((k, v1) :: t) k = ddel t k := by
        simp [ddel, List.filter_cons]
      rw [h1, ddel_eq_self_of_not_mem hnd.1, List.length_cons]
    · have hk1 : k1 ≠ k := by
        intro hkk
        subst hkk
        exact hnd.1 hmem
      have h1 : ddel ((k1, v1) :: t) k = (k1, v1) :: ddel t k := by
        simp [ddel, List.filter_cons, hk1]
      rw [h1, List.length_cons, List.length_cons, ih hnd.2 hmem]

theorem dget_append_of_not_mem {α β : Type} [DecidableEq α]
    {d e : List (α × β)} {k : α} (h : k ∉ d.map Prod.fst) :
    dget (d ++ e) k = dget e k := by
  induction d with
  | nil => rfl
  | cons p t ih =>
    obtain ⟨k1, v1⟩ := p
    simp only [List.map_cons, List.mem_cons] at h
    push_neg at h
    simp [dget, Ne.symm h.1]
    exact ih h.2

theorem dset_eq_append {α β : Type} [DecidableEq α] {d : List (α × β)}
    {k : α} {v : β} (h : k ∉ d.map Prod.fst) : dset d k v = d ++ [(k, v)] := by
  simp [dset, h]

theorem dget_append_singleton {α β : Type} [DecidableEq α]
    {d : List (α × β)} {k : α} {v : β} (h : k ∉ d.map Prod.fst) :
    dget (d ++ [(k, v)]) k = some v := by
  rw [dget_append_of_not_mem h]
  simp [dget]

theorem mem_of_getLast?_eq {α : Type} {l : List α} {a : α}
    (h : l.getLast? = some a) : a ∈ l := by
  rw [List.getLast?_eq_some_iff] at h
  obtain ⟨l2, rfl⟩ := h
  simp

theorem getLast?_min {l : List Nat}
    (h : List.Pairwise (fun a b : Nat => b < a) l) {m : Nat}
    (hm : l.getLast? = some m) : ∀ k ∈ l, m ≤ k := by
  induction l with
  | nil => simp at hm
  | cons a t ih =>
    cases t with
    | nil =>
      simp at hm
      subst hm
      intro k hk
      simp at hk
      simp [hk]
    | cons b t2 =>
      rw [List.getLast?_cons_cons] at hm
      have hR := List.pairwise_cons.1 h
      intro k hk
      rcases List.mem_cons.1 hk with rfl | hk2
      · exact le_of_lt (hR.1 m (mem_of_getLast?_eq hm))
      · exact ih hR.2 hm k hk2

theorem sorted_keys_nodup {d : List (Nat × String)}
    (h : List.Pairwise (fun a b : Nat × String => b.1 < a.1) d) :
    (d.map Prod.fst).Nodup := by
  have : (d.map Prod.fst).Pairwise (fun a b : Nat => a ≠ b) := by
    rw [List.pairwise_map]
    exact h.imp (fun hlt => ne_of_gt hlt)
  exact this

theorem filterMap_dget_eq_map {α β : Type} [DecidableEq α]
    {d : List (α × β)} (deflt : β) {l : List α}
    (h : ∀ k ∈ l, k ∈ d.map Prod.fst) :
    l.filterMap (fun k => (dget d k).map (fun v => (k, v))) =
      l.map (fun k => (k, (dget d k).getD deflt)) := by
  induction l with
  | nil => rfl
  | cons a t ih =>
    have ha : a ∈ d.map Prod.fst := h a (List.mem_cons_self a t)
    obtain ⟨v, hv⟩ : ∃ v, dget d a = some v := by
      cases hda : dget d a with
      | none => exact absurd ha (dget_eq_none_iff.1 hda)
      | some v => exact ⟨v, rfl⟩
    have ht := ih (fun k hk => h k (List.mem_cons_of_mem _ hk))
    simp [List.filterMap_cons, hv, ht]

theorem keys_map_dget {α β : Type} [DecidableEq α] {d : List (α × β)}
    (deflt : β) (hnd : (d.map Prod.fst).Nodup) :
    (d.map Prod.fst).map (fun k => (k, (dget d k).getD deflt)) = d := by
  induction d with
  | nil => rfl
  | cons p t ih =>
    obtain ⟨k1, v1⟩ := p
    simp only [List.map_cons, List.nodup_cons] at hnd
    have hd : dget ((k1, v1) :: t) k1 = some v1 := by simp [dget]
    have htail : (t.map Prod.fst).map
        (fun k => (k, (dget ((k1, v1) :: t) k).getD deflt)) =
        (t.map Prod.fst).map (fun k => (k, (dget t k).getD deflt)) := by
      apply List.map_congr_left
      intro k hk
      have hk1 : k1 ≠ k := by
        intro h
        rw [h] at hnd
        exact hnd.1 hk
      simp [dget, hk1]
    simp only [List.map_cons, hd, htail, ih hnd.2]
    simp

theorem sort_scores_perm {d : List (Nat × String)}
    (hnd : (d.map Prod.fst).Nodup) :
    List.Perm (ScoresServer.sort_scores d) d := by
  unfold ScoresServer.sort_scores
  have hmem : ∀ k ∈ List.insertionSort (fun a b : Nat => b ≤ a)
      (d.map Prod.fst), k ∈ d.map Prod.fst :=
    fun k hk => (List.perm_insertionSort _ _).mem_iff.1 hk
  rw [filterMap_dget_eq_map "" hmem]
  have h2 := (List.perm_insertionSort (fun a b : Nat => b ≤ a)
      (d.map Prod.fst)).map (fun k => (k, (dget d k).getD ""))
  rw [keys_map_dget "" hnd] at h2
  exact h2

theorem sort_scores_sorted {d : List (Nat × String)}
    (hnd : (d.map Prod.fst).Nodup) :
    List.Pairwise (fun a b : Nat × String => b.1 < a.1)
      (ScoresServer.sort_scores d) := by
  unfold ScoresServer.sort_scores
  have hmem : ∀ k ∈ List.insertionSort (fun a b : Nat => b ≤ a)
      (d.map Prod.fst), k ∈ d.map Prod.fst :=
    fun k hk => (List.perm_insertionSort _ _).mem_iff.1 hk
  rw [filterMap_dget_eq_map "" hmem]
  rw [List.pairwise_map]
  have hs : List.Pairwise (fun a b : Nat => b ≤ a)
      (List.insertionSort (fun a b : Nat => b ≤ a) (d.map Prod.fst)) :=
    List.sorted_insertionSort _ _
  have hn : (List.insertionSort (fun a b : Nat => b ≤ a)
      (d.map Prod.fst)).Nodup :=
    (List.perm_insertionSort _ _).nodup_iff.2 hnd
  exact (hs.and hn).imp (fun h => lt_of_le_of_ne h.1 (Ne.symm h.2))

theorem not_mem_keys_ddel {α β : Type} [DecidableEq α] {d : List (α × β)}
    {k : α} : k ∉ (ddel d k).map Prod.fst := by
  intro hm
  obtain ⟨p, hp, hpk⟩ := List.mem_map.1 hm
  exact (mem_ddel.1 hp).2 hpk

theorem keys_ddel_subset {α β : Type} [DecidableEq α] {d : List (α × β)}
    {k a : α} (h : a ∈ (ddel d k).map Prod.fst) : a ∈ d.map Prod.fst :=
  (ddel_keys_sublist d k).subset h

theorem GoodMaps.nodupScores {st : ScoresServer} (h : GoodMaps st) :
    (st.scores.map Prod.fst).Nodup :=
  sorted_keys_nodup h.sorted

/-- Deleting one stored entry from both dicts (as `add_score` does for a
superseded personal best and for an eviction) keeps the dicts inverse,
sorted and positive, and shrinks each by exactly one entry. -/
theorem goodMaps_del {st : ScoresServer} (h : GoodMaps st) {s0 : Nat}
    {u0 : String} (hm : (s0, u0) ∈ st.scores) (L : Nat) :
    GoodMaps ⟨L, ddel st.scores s0, ddel st.users u0⟩ ∧
      (ddel st.scores s0).length + 1 = st.scores.length ∧
      (ddel st.users u0).length + 1 = st.users.length := by
  have hmu : (u0, s0) ∈ st.users := h.inv₁ (s0, u0) hm
  have hnS : (st.scores.map Prod.fst).Nodup := h.nodupScores
  have hks : s0 ∈ st.scores.map Prod.fst := List.mem_map.2 ⟨(s0, u0), hm, rfl⟩
  have hku : u0 ∈ st.users.map Prod.fst := List.mem_map.2 ⟨(u0, s0), hmu, rfl⟩
  refine ⟨⟨?_, ?_, ?_, ?_, ?_⟩, length_ddel hnS hks, length_ddel h.nodupUsers hku⟩
  · exact h.nodupUsers.sublist (ddel_keys_sublist _ _)
  · exact h.sorted.sublist (List.filter_sublist _)
  · intro p hp
    obtain ⟨hpm, hpne⟩ := mem_ddel.1 hp
    have hpu := h.inv₁ p hpm
    refine mem_ddel.2 ⟨hpu, ?_⟩
    intro hpu0
    have : p.1 = s0 := by
      have h1 : (u0, p.1) ∈ st.users := by
        rw [← hpu0]; exact hpu
      exact dget_val_unique h.nodupUsers h1 hmu
    exact hpne this
  · intro p hp
    obtain ⟨hpm, hpne⟩ := mem_ddel.1 hp
    have hps := h.inv₂ p hpm
    refine mem_ddel.2 ⟨hps, ?_⟩
    intro hps0
    have : p.1 = u0 := by
      have h1 : (s0, p.1) ∈ st.scores := by
        rw [← hps0]; exact hps
      exact dget_val_unique hnS h1 hm
    exact hpne this
  · intro p hp
    exact h.pos p (mem_ddel.1 hp).1

/-- The final insertion (`users[name] = score; scores[score] = name;
sort_scores`) on a state whose dicts do not yet hold the submitted name
or score: the success outcome, the appended users dict, a scores dict
that is a reordering of the appended one, and the grown entry count. -/
theorem finishInsert_spec {st : ScoresServer} {name : String} {score : Nat}
    {ex : Option Nat} (h : GoodMaps st) (hs : 1 ≤ score)
    (hscore : score ∉ st.scores.map Prod.fst)
    (hname : name ∉ st.users.map Prod.fst) :
    ∃ st2, ScoresServer.finishInsert st name score ex =
        some (Outcome.added name score ex, st2) ∧
      GoodMaps st2 ∧
      st2.highscore_table_limit = st.highscore_table_limit ∧
      st2.users = st.users ++ [(name, score)] ∧
      List.Perm st2.scores (st.scores ++ [(score, name)]) ∧
      st2.scores.length = st.scores.length + 1 := by
  have hsetS : dset st.scores score name = st.scores ++ [(score, name)] :=
    dset_eq_append hscore
  have hsetU : dset st.users name score = st.users ++ [(name, score)] :=
    dset_eq_append hname
  have hkeys : ((st.scores ++ [(score, name)]).map Prod.fst).Nodup := by
    rw [List.map_append]
    rw [List.nodup_append]
    refine ⟨h.nodupScores, by simp, ?_⟩
    intro a ha hb
    simp only [List.map_cons, List.map_nil, List.mem_singleton] at hb
    rw [hb] at ha
    exact hscore ha
  have hperm : List.Perm (ScoresServer.sort_scores (st.scores ++ [(score, name)]))
      (st.scores ++ [(score, name)]) := sort_scores_perm hkeys
  have hsorted := sort_scores_sorted hkeys
  refine ⟨{ highscore_table_limit := st.highscore_table_limit,
            scores := ScoresServer.sort_scores (st.scores ++ [(score, name)]),
            users := st.users ++ [(name, score)] }, ?_, ?_, rfl, rfl, hperm, ?_⟩
  · rw [ScoresServer.finishInsert, hsetS, hsetU]
  · constructor
    · show ((st.users ++ [(name, score)]).map Prod.fst).Nodup
      rw [List.map_append, List.nodup_append]
      refine ⟨h.nodupUsers, by simp, ?_⟩
      intro a ha hb
      simp only [List.map_cons, List.map_nil, List.mem_singleton] at hb
      rw [hb] at ha
      exact hname ha
    · exact hsorted
    · intro p hp
      have hp2 : p ∈ st.scores ++ [(score, name)] := hperm.mem_iff.1 hp
      rcases List.mem_append.1 hp2 with hp3 | hp3
      · exact List.mem_append_left _ (h.inv₁ p hp3)
      · simp only [List.mem_singleton] at hp3
        rw [hp3]
        simp
    · intro p hp
      refine hperm.mem_iff.2 ?_
      rcases List.mem_append.1 hp with hp3 | hp3
      · exact List.mem_append_left _ (h.inv₂ p hp3)
      · simp only [List.mem_singleton] at hp3
        rw [hp3]
        simp
    · intro p hp
      have hp2 : p ∈ st.scores ++ [(score, name)] := hperm.mem_iff.1 hp
      rcases List.mem_append.1 hp2 with hp3 | hp3
      · exact h.pos p hp3
      · simp only [List.mem_singleton] at hp3
        rw [hp3]
        exact hs
  · show (ScoresServer.sort_scores (st.scores ++ [(score, name)])).length = _
    rw [hperm.length_eq]
    simp

/-- Soundness of the capacity check and eviction step, on a state whose
dicts do not hold the submitted name or score: the store invariant is
re-established, and on a success outcome the submitted entry is stored
under both dicts. -/
theorem capacityInsert_sound {st1 : ScoresServer} {name : String}
    {score : Nat} {ex : Option Nat} {out : Outcome} {st' : ScoresServer}
    (h : GoodMaps st1) (hs : 1 ≤ score)
    (hscore : score ∉ st1.scores.map Prod.fst)
    (hname : name ∉ st1.users.map Prod.fst)
    (hcard : st1.scores.length ≤ st1.highscore_table_limit)
    (heq : ScoresServer.capacityInsert st1 name score ex = some (out, st')) :
    StoreInv st' ∧
      ∀ u s e2, out = Outcome.added u s e2 →
        (score, name) ∈ st'.scores ∧ dget st'.users name = some score := by
  unfold ScoresServer.capacityInsert at heq
  by_cases hlen : st1.scores.length = st1.highscore_table_limit
  · rw [if_pos hlen] at heq
    cases hlast : (st1.scores.map Prod.fst).getLast? with
    | none =>
      simp only [hlast] at heq
      exact Option.noConfusion heq
    | some lowest =>
      simp only [hlast] at heq
      by_cases hgt : lowest > score
      · rw [if_pos hgt] at heq
        rw [Option.some.injEq, Prod.mk.injEq] at heq
        obtain ⟨rfl, rfl⟩ := heq
        refine ⟨⟨h, hcard⟩, ?_⟩
        intro u s e2 hout
        simp at hout
      · rw [if_neg hgt] at heq
        have hlmem : lowest ∈ st1.scores.map Prod.fst := mem_of_getLast?_eq hlast
        obtain ⟨lu, hlu⟩ : ∃ lu, dget st1.scores lowest = some lu := by
          cases hd : dget st1.scores lowest with
          | none => exact absurd hlmem (dget_eq_none_iff.1 hd)
          | some lu => exact ⟨lu, rfl⟩
        simp only [hlu] at heq
        have hlm : (lowest, lu) ∈ st1.scores := dget_mem hlu
        obtain ⟨hgm2, hlenS, hlenU⟩ := goodMaps_del h hlm st1.highscore_table_limit
        obtain ⟨st3, hfi, hgm3, hlim3, husers3, hperm3, hlen3⟩ :=
          @finishInsert_spec
            ⟨st1.highscore_table_limit, ddel st1.scores lowest,
              ddel st1.users lu⟩ name score ex
            hgm2 hs (fun hm => hscore (keys_ddel_subset hm))
            (fun hm => hname (keys_ddel_subset hm))
        rw [hfi, Option.some.injEq, Prod.mk.injEq] at heq
        obtain ⟨rfl, rfl⟩ := heq
        constructor
        · refine ⟨hgm3, ?_⟩
          have e1 : st3.highscore_table_limit = st1.highscore_table_limit :=
            hlim3
          have e2 : st3.scores.length = (ddel st1.scores lowest).length + 1 :=
            hlen3
          rw [e1, e2, hlenS]
          exact hcard
        · intro u s e2 _
          constructor
          · exact hperm3.mem_iff.2 (List.mem_append_right _ (by simp))
          · rw [husers3]
            exact dget_append_singleton
              (fun hm => hname (keys_ddel_subset hm))
  · rw [if_neg hlen] at heq
    obtain ⟨st3, hfi, hgm3, hlim3, husers3, hperm3, hlen3⟩ :=
      @finishInsert_spec st1 name score ex h hs hscore hname
    rw [hfi, Option.some.injEq, Prod.mk.injEq] at heq
    obtain ⟨rfl, rfl⟩ := heq
    constructor
    · refine ⟨hgm3, ?_⟩
      rw [hlim3, hlen3]
      omega
    · intro u s e2 _
      constructor
      · exact hperm3.mem_iff.2 (List.mem_append_right _ (by simp))
      · rw [husers3]
        exact dget_append_singleton hname

/-- Soundness of `add_score` on a state satisfying the store invariant,
for a validated submission (`1 ≤ score`): the invariant is preserved,
and a success outcome stores the submitted entry under both dicts. -/
theorem add_score_sound {st : ScoresServer} {name : String} {score : Nat}
    {out : Outcome} {st' : ScoresServer} (h : StoreInv st) (hs : 1 ≤ score)
    (heq : ScoresServer.add_score st name score = some (out, st')) :
    StoreInv st' ∧
      ∀ u s e2, out = Outcome.added u s e2 →
        (score, name) ∈ st'.scores ∧ dget st'.users name = some score := by
  unfold ScoresServer.add_score at heq
  cases hget : dget st.scores score with
  | some user =>
    simp only [hget] at heq
    by_cases hne : user = name
    · rw [if_neg (by simp [hne])] at heq
      subst hne
      have hmem : (score, user) ∈ st.scores := dget_mem hget
      have hu : (user, score) ∈ st.users := h.inv₁ _ hmem
      have hprev : dget st.users user = some score :=
        dget_eq_some_of_mem h.nodupUsers hu
      unfold ScoresServer.prevCheck at heq
      simp only [hprev] at heq
      rw [if_pos (by omega : score ≠ 0)] at heq
      rw [if_neg (by omega : ¬score > score)] at heq
      rw [Option.some.injEq, Prod.mk.injEq] at heq
      obtain ⟨rfl, rfl⟩ := heq
      refine ⟨h, ?_⟩
      intro u s e2 hout
      simp at hout
    · rw [if_pos hne] at heq
      rw [Option.some.injEq, Prod.mk.injEq] at heq
      obtain ⟨rfl, rfl⟩ := heq
      refine ⟨h, ?_⟩
      intro u s e2 hout
      simp at hout
  | none =>
    simp only [hget] at heq
    unfold ScoresServer.prevCheck at heq
    cases hprev : dget st.users name with
    | some prev =>
      simp only [hprev] at heq
      have hup : (name, prev) ∈ st.users := dget_mem hprev
      have hps : (prev, name) ∈ st.scores := h.inv₂ _ hup
      have hprevpos : 1 ≤ prev := h.pos _ hps
      rw [if_pos (by omega : prev ≠ 0)] at heq
      by_cases himp : score > prev
      · rw [if_pos himp] at heq
        obtain ⟨hgm2, hlenS, hlenU⟩ :=
          goodMaps_del h.toGoodMaps hps st.highscore_table_limit
        refine capacityInsert_sound hgm2 hs ?_ ?_ ?_ heq
        · exact fun hm => (dget_eq_none_iff.1 hget) (keys_ddel_subset hm)
        · exact not_mem_keys_ddel
        · have hc := h.card_le
          show (ddel st.scores prev).length ≤ st.highscore_table_limit
          omega
      · rw [if_neg himp] at heq
        rw [Option.some.injEq, Prod.mk.injEq] at heq
        obtain ⟨rfl, rfl⟩ := heq
        refine ⟨h, ?_⟩
        intro u s e2 hout
        simp at hout
    | none =>
      simp only [hprev] at heq
      exact capacityInsert_sound h.toGoodMaps hs (dget_eq_none_iff.1 hget)
        (dget_eq_none_iff.1 hprev) h.card_le heq

/-- Every state reachable from a fresh server by validated submissions
satisfies the store invariant. -/
theorem reachable_storeInv {st : ScoresServer} (h : Reachable st) :
    StoreInv st := by
  induction h with
  | init limit =>
    exact ⟨⟨by simp [ScoresServer.init], by simp [ScoresServer.init],
      by simp [ScoresServer.init], by simp [ScoresServer.init],
      by simp [ScoresServer.init]⟩, by simp [ScoresServer.init]⟩
  | step hre hs heq ih => exact (add_score_sound ih hs heq).1

/-- The users dict is exactly as large as the scores dict whenever the
invariant holds: the two dicts are inverse bijections. -/
theorem storeInv_length_eq {st : ScoresServer} (h : StoreInv st) :
    st.users.length = st.scores.length := by
  have hnS : st.scores.Nodup := List.Nodup.of_map _ h.toGoodMaps.nodupScores
  have hnU : st.users.Nodup := List.Nodup.of_map _ h.nodupUsers
  have hswap : (st.users.map Prod.swap).Nodup := hnU.map Prod.swap_injective
  have hmem : ∀ p : Nat × String,
      p ∈ st.users.map Prod.swap ↔ p ∈ st.scores := by
    intro p
    constructor
    · intro hp
      obtain ⟨q, hq, hqe⟩ := List.mem_map.1 hp
      have h2 := h.inv₂ q hq
      rw [← hqe]
      simpa [Prod.swap] using h2
    · intro hp
      exact List.mem_map.2 ⟨(p.2, p.1), h.inv₁ p hp, by simp [Prod.swap]⟩
  have hperm := (List.perm_ext_iff_of_nodup hswap hnS).2 hmem
  have hlen := hperm.length_eq
  simpa using hlen

theorem exampleState1_reachable : Reachable exampleState1 :=
  @Reachable.step (ScoresServer.init 2) exampleState1 "alice" 10
    (Outcome.added "alice" 10 none) (Reachable.init 2) (by decide) (by decide)

theorem exampleState2_reachable : Reachable exampleState2 :=
  @Reachable.step exampleState1 exampleState2 "bob" 5
    (Outcome.added "bob" 5 none) exampleState1_reachable (by decide)
    (by decide)

/-- C1. Inverse-map invariant: in every state reachable from the empty
store by SubmitScore operations, `users` and `scores` are exact inverses
(`scores[users[u]] = u` and `users[scores[s]] = s`), the two dicts have
equal cardinality, and that cardinality never exceeds
`highscore_table_limit`. -/
theorem inverse_map_invariant (st : ScoresServer) (h : Reachable st) :
    (∀ u s, dget st.users u = some s → dget st.scores s = some u) ∧
    (∀ s u, dget st.scores s = some u → dget st.users u = some s) ∧
    st.users.length = st.scores.length ∧
    st.scores.length ≤ st.highscore_table_limit := by
  have hi := reachable_storeInv h
  refine ⟨?_, ?_, storeInv_length_eq hi, hi.card_le⟩
  · intro u s hg
    exact dget_eq_some_of_mem hi.toGoodMaps.nodupScores
      (hi.inv₂ _ (dget_mem hg))
  · intro s u hg
    exact dget_eq_some_of_mem hi.nodupUsers (hi.inv₁ _ (dget_mem hg))

theorem inverse_map_invariant_witness :
    Reachable exampleState2 ∧
      ((∀ u s, dget exampleState2.users u = some s →
          dget exampleState2.scores s = some u) ∧
        (∀ s u, dget exampleState2.scores s = some u →
          dget exampleState2.users u = some s) ∧
        exampleState2.users.length = exampleState2.scores.length ∧
        exampleState2.scores.length ≤
          exampleState2.highscore_table_limit) :=
  ⟨exampleState2_reachable,
    inverse_map_invariant exampleState2 exampleState2_reachable⟩

/-- C3. Uniqueness-of-slot: whenever the submitted score is already
mapped to a different user in the scores dict, `add_score` returns the
claimed-by-other rejection carrying the incumbent holder and the score,
and the state is returned exactly unchanged — in any state, whether or
not the submitter has an entry. -/
theorem uniqueness_of_slot (st : ScoresServer) (name holder : String)
    (score : Nat) (hget : dget st.scores score = some holder)
    (hne : holder ≠ name) :
    ScoresServer.add_score st name score =
      some (Outcome.claimedByOther holder score, st) := by
  unfold ScoresServer.add_score
  simp only [hget]
  rw [if_pos hne]

theorem uniqueness_of_slot_witness :
    dget exampleState2.scores 5 = some "bob" ∧ "bob" ≠ "alice" ∧
      ScoresServer.add_score exampleState2 "alice" 5 =
        some (Outcome.claimedByOther "bob" 5, exampleState2) :=
  ⟨by decide, by decide,
    uniqueness_of_slot exampleState2 "alice" "bob" 5 (by decide) (by decide)⟩

/-- The capacity step can only fail (the modelled `IndexError` of
`list(self.scores)[-1]`) when the limit is `0`: whenever the branch is
entered the dict has `highscore_table_limit ≥ 1` entries. -/
theorem capacityInsert_isSome {st : ScoresServer} {name : String}
    {score : Nat} {ex : Option Nat} (h : 1 ≤ st.highscore_table_limit) :
    (ScoresServer.capacityInsert st name score ex).isSome = true := by
  unfold ScoresServer.capacityInsert
  by_cases hlen : st.scores.length = st.highscore_table_limit
  · rw [if_pos hlen]
    cases hlast : (st.scores.map Prod.fst).getLast? with
    | none =>
      rw [List.getLast?_eq_none_iff] at hlast
      have hnil : st.scores = [] := List.map_eq_nil_iff.1 hlast
      rw [hnil] at hlen
      simp at hlen
      omega
    | some lowest =>
      simp only [hlast]
      by_cases hgt : lowest > score
      · rw [if_pos hgt]; rfl
      · rw [if_neg hgt]
        simp [ScoresServer.finishInsert]
  · rw [if_neg hlen]
    simp [ScoresServer.finishInsert]

/-- The personal-best step never faults when the limit is at least 1. -/
theorem prevCheck_isSome {st : ScoresServer} {name : String} {score : Nat}
    (h : 1 ≤ st.highscore_table_limit) :
    (ScoresServer.prevCheck st name score).isSome = true := by
  unfold ScoresServer.prevCheck
  cases hprev : dget st.users name with
  | some prev =>
    simp only [hprev]
    by_cases hp : prev ≠ 0
    · rw [if_pos hp]
      by_cases himp : score > prev
      · rw [if_pos himp]
        exact capacityInsert_isSome h
      · rw [if_neg himp]; rfl
    · rw [if_neg hp]
      exact capacityInsert_isSome h
  | none =>
    simp only [hprev]
    exact capacityInsert_isSome h

/-- C10. Eviction index safety: whenever the capacity branch of
`add_score` is reached the scores dict holds `highscore_table_limit`
entries, so for every server with capacity at least 1 the
`list(self.scores)[-1]` access is in bounds and `add_score` returns a
response on every input and state; for a server constructed with
capacity 0, the very first submission of any new user reaches that
access on an empty dict and the operation faults (returns no response)
instead of rejecting. -/
theorem eviction_index_safety :
    (∀ (st : ScoresServer) (name : String) (score : Nat),
        1 ≤ st.highscore_table_limit →
        (ScoresServer.add_score st name score).isSome = true) ∧
      ∀ (name : String) (score : Nat),
        ScoresServer.add_score (ScoresServer.init 0) name score = none := by
  constructor
  · intro st name score h
    unfold ScoresServer.add_score
    cases hget : dget st.scores score with
    | some user =>
      simp only [hget]
      by_cases hne : user ≠ name
      · rw [if_pos hne]; rfl
      · rw [if_neg hne]
        exact prevCheck_isSome h
    | none =>
      simp only [hget]
      exact prevCheck_isSome h
  · intro name score
    rfl

theorem eviction_index_safety_witness :
    1 ≤ (ScoresServer.init 5).highscore_table_limit ∧
      (ScoresServer.add_score (ScoresServer.init 5) "dave" 3).isSome = true :=
  ⟨by decide,
    eviction_index_safety.1 (ScoresServer.init 5) "dave" 3 (by decide)⟩

/-- C9 (failing evaluation). All four `add_score` responses carry
`"status": "success"` and HTTP 200: resubmitting the identical pair
(alice, 10) is rejected as not-a-new-personal-best, yet its structured
response fields (status, HTTP status, and the `score` object) are
identical to those of the successful first submission — the rejection is
distinguishable only by the free-text message. -/
theorem rejection_indistinguishable :
    ScoresServer.add_score (ScoresServer.init 2) "alice" 10 =
        some (Outcome.added "alice" 10 none, exampleState1) ∧
      ScoresServer.add_score exampleState1 "alice" 10 =
        some (Outcome.notPersonalBest "alice" 10, exampleState1) ∧
      renderSubmit (Outcome.notPersonalBest "alice" 10) =
        renderSubmit (Outcome.added "alice" 10 none) :=
  ⟨by decide, by decide, rfl⟩

theorem exampleState2_storeInv : StoreInv exampleState2 :=
  reachable_storeInv exampleState2_reachable

/-- C4 (counterexample). In {alice: 10, bob: 5}, alice resubmitting 5
(her previous best is 10, so 5 ≤ prev) is rejected — but with the
claimed-by-other outcome naming bob, not the not-a-personal-best
outcome, because the score-claimed check at line 137 runs first. -/
theorem monotonic_improvement_counterexample :
    dget exampleState2.users "alice" = some 10 ∧ (5 : Nat) ≤ 10 ∧
      ScoresServer.add_score exampleState2 "alice" 5 =
        some (Outcome.claimedByOther "bob" 5, exampleState2) ∧
      ScoresServer.add_score exampleState2 "alice" 5 ≠
        some (Outcome.notPersonalBest "alice" 10, exampleState2) := by
  decide

/-- C4 (amended). If the user has a recorded score `prev` with
`score ≤ prev` and the submitted score is not currently claimed by a
different user, `add_score` returns the not-a-personal-best rejection
carrying the user and `prev` and leaves the state exactly unchanged;
moreover, after any successful submission, resubmitting the identical
(user, score) pair yields that rejection with no state change. -/
theorem monotonic_improvement :
    (∀ (st : ScoresServer) (name : String) (score prev : Nat),
        1 ≤ score → dget st.users name = some prev → score ≤ prev →
        (∀ holder, dget st.scores score = some holder → holder = name) →
        ScoresServer.add_score st name score =
          some (Outcome.notPersonalBest name prev, st)) ∧
      ∀ (st st' : ScoresServer) (name : String) (score : Nat)
        (ex : Option Nat), StoreInv st → 1 ≤ score →
        ScoresServer.add_score st name score =
          some (Outcome.added name score ex, st') →
        ScoresServer.add_score st' name score =
          some (Outcome.notPersonalBest name score, st') := by
  constructor
  · intro st name score prev hs hprev hle hcl
    unfold ScoresServer.add_score
    cases hget : dget st.scores score with
    | some holder =>
      simp only [hget]
      have hh : holder = name := hcl holder hget
      rw [if_neg (by simp [hh])]
      unfold ScoresServer.prevCheck
      simp only [hprev]
      rw [if_pos (by omega : prev ≠ 0), if_neg (by omega : ¬score > prev)]
    | none =>
      simp only [hget]
      unfold ScoresServer.prevCheck
      simp only [hprev]
      rw [if_pos (by omega : prev ≠ 0), if_neg (by omega : ¬score > prev)]
  · intro st st' name score ex hi hs heq
    obtain ⟨hi2, hadd⟩ := add_score_sound hi hs heq
    obtain ⟨hmem, hprev⟩ := hadd name score ex rfl
    have hget : dget st'.scores score = some name :=
      dget_eq_some_of_mem hi2.toGoodMaps.nodupScores hmem
    unfold ScoresServer.add_score
    simp only [hget]
    rw [if_neg (by simp)]
    unfold ScoresServer.prevCheck
    simp only [hprev]
    rw [if_pos (by omega : score ≠ 0), if_neg (by omega : ¬score > score)]

theorem monotonic_improvement_witness :
    ScoresServer.add_score exampleState2 "bob" 3 =
        some (Outcome.notPersonalBest "bob" 5, exampleState2) ∧
      ScoresServer.add_score exampleState1 "alice" 10 =
        some (Outcome.notPersonalBest "alice" 10, exampleState1) :=
  ⟨monotonic_improvement.1 exampleState2 "bob" 3 5 (by decide) (by decide)
      (by decide)
      (fun holder h => by
        have hn : dget exampleState2.scores 3 = none := by decide
        rw [hn] at h
        exact Option.noConfusion h),
    monotonic_improvement.2 (ScoresServer.init 2) exampleState1 "alice" 10
      none
      ⟨⟨by decide, by decide, by decide, by decide, by decide⟩, by decide⟩
      (by decide) (by decide)⟩

/-- C5 (counterexample). In the full store {alice: 10, bob: 5}, the new
user carol submitting exactly the current lowest score 5 (which "does
not exceed" it) is rejected — but with the claimed-by-other outcome, not
the leaderboard-full one: the score-claimed check runs before the
capacity check. -/
theorem leaderboard_full_counterexample :
    exampleState2.scores.length = exampleState2.highscore_table_limit ∧
      dget exampleState2.users "carol" = none ∧
      (exampleState2.scores.map Prod.fst).getLast? = some 5 ∧
      (5 : Nat) ≤ 5 ∧
      ScoresServer.add_score exampleState2 "carol" 5 =
        some (Outcome.claimedByOther "bob" 5, exampleState2) ∧
      ScoresServer.add_score exampleState2 "carol" 5 ≠
        some (Outcome.leaderboardFull 2 5, exampleState2) := by
  decide

/-- C5 (amended). In an invariant store at capacity, a submission by a
user with no entry whose score is strictly below the current lowest
stored score is rejected with the leaderboard-full outcome carrying the
capacity and that lowest score as the threshold to beat, and the state
is returned exactly unchanged. (A score equal to the lowest is instead
rejected as claimed-by-other, per the counterexample.) -/
theorem leaderboard_full_rejection (st : ScoresServer) (name : String)
    (score lowest : Nat) (h : StoreInv st)
    (hful : st.scores.length = st.highscore_table_limit)
    (hnew : dget st.users name = none)
    (hlow : (st.scores.map Prod.fst).getLast? = some lowest)
    (hlt : score < lowest) :
    ScoresServer.add_score st name score =
      some (Outcome.leaderboardFull st.highscore_table_limit lowest, st) := by
  have hmin : ∀ k ∈ st.scores.map Prod.fst, lowest ≤ k := by
    apply getLast?_min ?_ hlow
    rw [List.pairwise_map]
    exact h.sorted
  have hget : dget st.scores score = none := by
    rw [dget_eq_none_iff]
    intro hmem
    exact absurd (hmin score hmem) (by omega)
  unfold ScoresServer.add_score
  simp only [hget]
  unfold ScoresServer.prevCheck
  simp only [hnew]
  unfold ScoresServer.capacityInsert
  rw [if_pos hful]
  simp only [hlow]
  rw [if_pos (by omega : lowest > score)]

theorem leaderboard_full_rejection_witness :
    StoreInv exampleState2 ∧
      ScoresServer.add_score exampleState2 "carol" 3 =
        some (Outcome.leaderboardFull 2 5, exampleState2) :=
  ⟨exampleState2_storeInv,
    leaderboard_full_rejection exampleState2 "carol" 3 5
      exampleState2_storeInv (by decide) (by decide) (by decide) (by decide)⟩

/-- C2 (counterexample). In the full store {alice: 10, bob: 5}, the new
user carol submits 10 — strictly higher than the minimum 5 — yet no
eviction or insertion happens: 10 is already claimed by alice, so the
operation returns claimed-by-other and the store (including the minimum
entry (5, bob)) is unchanged. -/
theorem capacity_eviction_counterexample :
    exampleState2.scores.length = exampleState2.highscore_table_limit ∧
      dget exampleState2.users "carol" = none ∧
      (exampleState2.scores.map Prod.fst).getLast? = some 5 ∧
      (5 : Nat) < 10 ∧
      ScoresServer.add_score exampleState2 "carol" 10 =
        some (Outcome.claimedByOther "alice" 10, exampleState2) ∧
      (5, "bob") ∈ exampleState2.scores := by
  decide

/-- C2 (amended). In an invariant store at capacity, a submission by a
user with no entry, with a score strictly above the current minimum and
not equal to any stored score, succeeds: the entry holding the minimum
score (the dict's last entry, which the theorem also shows to be the
minimum) is removed, the new (score, user) entry is inserted, and both
entry counts are unchanged. -/
theorem capacity_eviction (st : ScoresServer) (name : String)
    (score lowest : Nat) (h : StoreInv st)
    (hful : st.scores.length = st.highscore_table_limit)
    (hnew : dget st.users name = none)
    (hfree : dget st.scores score = none)
    (hlow : (st.scores.map Prod.fst).getLast? = some lowest)
    (hgt : lowest < score) :
    (∀ p ∈ st.scores, lowest ≤ p.1) ∧
      ∃ st', ScoresServer.add_score st name score =
          some (Outcome.added name score none, st') ∧
        st'.scores.length = st.scores.length ∧
        st'.users.length = st.users.length ∧
        ∀ p : Nat × String,
          p ∈ st'.scores ↔ (p ∈ st.scores ∧ p.1 ≠ lowest) ∨
            p = (score, name) := by
  have hmin : ∀ k ∈ st.scores.map Prod.fst, lowest ≤ k := by
    apply getLast?_min ?_ hlow
    rw [List.pairwise_map]
    exact h.sorted
  have hlmem : lowest ∈ st.scores.map Prod.fst := mem_of_getLast?_eq hlow
  obtain ⟨lu, hlu⟩ : ∃ lu, dget st.scores lowest = some lu := by
    cases hd : dget st.scores lowest with
    | none => exact absurd hlmem (dget_eq_none_iff.1 hd)
    | some lu => exact ⟨lu, rfl⟩
  have hlm : (lowest, lu) ∈ st.scores := dget_mem hlu
  have hs : 1 ≤ score := by
    have hp := h.pos _ hlm
    omega
  obtain ⟨hgm2, hlenS, hlenU⟩ :=
    goodMaps_del h.toGoodMaps hlm st.highscore_table_limit
  obtain ⟨st3, hfi, hgm3, hlim3, husers3, hperm3, hlen3⟩ :=
    @finishInsert_spec
      ⟨st.highscore_table_limit, ddel st.scores lowest, ddel st.users lu⟩
      name score none hgm2 hs
      (fun hm => (dget_eq_none_iff.1 hfree) (keys_ddel_subset hm))
      (fun hm => (dget_eq_none_iff.1 hnew) (keys_ddel_subset hm))
  have hlen3a : st3.scores.length = (ddel st.scores lowest).length + 1 :=
    hlen3
  have husers3a : st3.users = ddel st.users lu ++ [(name, score)] := husers3
  refine ⟨fun p hp => hmin p.1 (List.mem_map.2 ⟨p, hp, rfl⟩),
    st3, ?_, by omega, ?_, ?_⟩
  · unfold ScoresServer.add_score
    simp only [hfree]
    unfold ScoresServer.prevCheck
    simp only [hnew]
    unfold ScoresServer.capacityInsert
    rw [if_pos hful]
    simp only [hlow]
    rw [if_neg (by omega : ¬lowest > score)]
    simp only [hlu]
    exact hfi
  · rw [husers3a, List.length_append]
    simp only [List.length_cons, List.length_nil]
    omega
  · intro p
    have hmm : p ∈ st3.scores ↔
        p ∈ ddel st.scores lowest ++ [(score, name)] := hperm3.mem_iff
    rw [hmm, List.mem_append, List.mem_singleton, mem_ddel]

theorem capacity_eviction_witness :
    StoreInv exampleState2 ∧
      ((∀ p ∈ exampleState2.scores, 5 ≤ p.1) ∧
        ∃ st', ScoresServer.add_score exampleState2 "carol" 7 =
            some (Outcome.added "carol" 7 none, st') ∧
          st'.scores.length = exampleState2.scores.length ∧
          st'.users.length = exampleState2.users.length ∧
          ∀ p : Nat × String,
            p ∈ st'.scores ↔ (p ∈ exampleState2.scores ∧ p.1 ≠ 5) ∨
              p = (7, "carol")) :=
  ⟨exampleState2_storeInv,
    capacity_eviction exampleState2 "carol" 7 5 exampleState2_storeInv
      (by decide) (by decide) (by decide) (by decide) (by decide)⟩

/-- C7 (counterexample). `get_rank 0` on a one-entry store hits the
`rank <= 0` branch (line 209), whose 404 response is the fixed `rank
must be 1 or greater` message: it carries no entry count, so a not-found
for a rank below 1 does not carry the valid range. -/
theorem get_rank_not_found_counterexample :
    (0 : Int) < 1 ∧
      ScoresServer.get_rank exampleState1 0 = RankOutcome.notFoundLow ∧
      RankOutcome.carriedRange (ScoresServer.get_rank exampleState1 0) ≠
        some exampleState1.scores.length := by
  decide

/-- C7 (amended). `get_rank` reads the state without mutating it
(modelled as a pure function of the state) and rejects every
out-of-range rank with a not-found outcome: a rank above the entry count
gets the rejection carrying the current entry count as the valid range,
while a rank below 1 gets the fixed `rank must be 1 or greater`
rejection, which carries no count. -/
theorem get_rank_not_found (st : ScoresServer) (rank : Int) :
    (rank ≤ 0 →
      ScoresServer.get_rank st rank = RankOutcome.notFoundLow ∧
        RankOutcome.carriedRange (ScoresServer.get_rank st rank) = none) ∧
      ((st.scores.length : Int) < rank →
        ScoresServer.get_rank st rank =
            RankOutcome.notFoundHigh rank st.scores.length ∧
          RankOutcome.carriedRange (ScoresServer.get_rank st rank) =
            some st.scores.length) := by
  constructor
  · intro hr
    have he : ScoresServer.get_rank st rank = RankOutcome.notFoundLow := by
      unfold ScoresServer.get_rank
      rw [if_pos hr]
    exact ⟨he, by rw [he]; rfl⟩
  · intro hr
    have hr0 : ¬rank ≤ 0 := by
      have h0 : (0 : Int) ≤ (st.scores.length : Int) := Int.natCast_nonneg _
      omega
    have hcond : ((st.scores.map Prod.fst).length : Int) < rank := by
      rw [List.length_map]
      exact hr
    have he : ScoresServer.get_rank st rank =
        RankOutcome.notFoundHigh rank st.scores.length := by
      simp only [ScoresServer.get_rank]
      rw [if_neg hr0, if_pos hcond, List.length_map]
    exact ⟨he, by rw [he]; rfl⟩

theorem get_rank_not_found_witness :
    (ScoresServer.get_rank exampleState2 0 = RankOutcome.notFoundLow ∧
        RankOutcome.carriedRange (ScoresServer.get_rank exampleState2 0) =
          none) ∧
      ScoresServer.get_rank exampleState2 3 =
          RankOutcome.notFoundHigh 3 exampleState2.scores.length ∧
        RankOutcome.carriedRange (ScoresServer.get_rank exampleState2 3) =
          some exampleState2.scores.length :=
  ⟨(get_rank_not_found exampleState2 0).1 (by decide),
    (get_rank_not_found exampleState2 3).2 (by decide)⟩

/-- C8. ListAll (`get_all_scores`) serializes the scores dict as-is: in
every reachable state this is the complete entry set (it contains
exactly the inverses of the users dict entries) in strictly descending
score order; the operation is a pure read of the state (it is modelled
as a function with no mutation) and its result type has no failure
outcome. -/
theorem list_all_spec (st : ScoresServer) (h : Reachable st) :
    ScoresServer.get_all_scores st = st.scores ∧
      List.Pairwise (fun a b : Nat × String => b.1 < a.1)
        (ScoresServer.get_all_scores st) ∧
      ∀ s u, (s, u) ∈ ScoresServer.get_all_scores st ↔ (u, s) ∈ st.users := by
  have hi := reachable_storeInv h
  refine ⟨rfl, hi.sorted, ?_⟩
  intro s u
  constructor
  · intro hm
    exact hi.inv₁ (s, u) hm
  · intro hm
    exact hi.inv₂ (u, s) hm

theorem list_all_spec_witness :
    Reachable exampleState2 ∧
      (ScoresServer.get_all_scores exampleState2 = exampleState2.scores ∧
        List.Pairwise (fun a b : Nat × String => b.1 < a.1)
          (ScoresServer.get_all_scores exampleState2) ∧
        ∀ s u, (s, u) ∈ ScoresServer.get_all_scores exampleState2 ↔
          (u, s) ∈ exampleState2.users) :=
  ⟨exampleState2_reachable,
    list_all_spec exampleState2 exampleState2_reachable⟩

/-- For an in-range rank `k` (1-based), `get_rank` succeeds and returns
the key at index `k - 1` of `list(self.scores)` together with its stored
user. -/
theorem get_rank_found {st : ScoresServer} {k : Nat}
    (hk1 : 1 ≤ k) (hk2 : k ≤ st.scores.length) :
    ∃ u, ScoresServer.get_rank st (k : Int) =
        RankOutcome.found u ((st.scores.map Prod.fst).getD (k - 1) 0) ∧
      ((st.scores.map Prod.fst).getD (k - 1) 0, u) ∈ st.scores := by
  have hr0 : ¬(k : Int) ≤ 0 := by omega
  have hlenmap : (st.scores.map Prod.fst).length = st.scores.length :=
    List.length_map _ _
  have hcond : ¬((st.scores.map Prod.fst).length : Int) < (k : Int) := by
    rw [hlenmap]
    omega
  have hidx : ((k : Int) - 1).toNat = k - 1 := by omega
  have hklt : k - 1 < (st.scores.map Prod.fst).length := by
    rw [hlenmap]
    omega
  have hmemk : (st.scores.map Prod.fst).getD (k - 1) 0 ∈
      st.scores.map Prod.fst := by
    rw [List.getD_eq_getElem _ _ hklt]
    exact List.getElem_mem hklt
  obtain ⟨u, hu⟩ : ∃ u,
      dget st.scores ((st.scores.map Prod.fst).getD (k - 1) 0) = some u := by
    cases hd : dget st.scores ((st.scores.map Prod.fst).getD (k - 1) 0) with
    | none => exact absurd hmemk (dget_eq_none_iff.1 hd)
    | some u => exact ⟨u, rfl⟩
  refine ⟨u, ?_, dget_mem hu⟩
  simp only [ScoresServer.get_rank]
  rw [if_neg hr0, if_neg hcond, hidx, hu]
  rfl

theorem pairwise_getD_lt {l : List Nat}
    (h : List.Pairwise (fun a b : Nat => b < a) l) {i j : Nat}
    (hij : i < j) (hj : j < l.length) : l.getD j 0 < l.getD i 0 := by
  rw [List.getD_eq_getElem _ _ hj, List.getD_eq_getElem _ _ (by omega)]
  exact List.pairwise_iff_getElem.1 h i j (by omega) hj hij

/-- C6. Rank ordering: in every reachable non-empty state, `get_rank 1`
returns a stored entry whose score is the maximum present, and for every
pair of consecutive valid ranks the returned scores strictly
decrease. -/
theorem rank_ordering (st : ScoresServer) (h : Reachable st)
    (hne : st.scores ≠ []) :
    (∃ u s, ScoresServer.get_rank st 1 = RankOutcome.found u s ∧
        (s, u) ∈ st.scores ∧ ∀ p ∈ st.scores, p.1 ≤ s) ∧
      ∀ k : Nat, 1 ≤ k → k + 1 ≤ st.scores.length →
        ∃ u1 s1 u2 s2,
          ScoresServer.get_rank st (k : Int) = RankOutcome.found u1 s1 ∧
            ScoresServer.get_rank st ((k + 1 : Nat) : Int) =
              RankOutcome.found u2 s2 ∧
            s2 < s1 := by
  have hi := reachable_storeInv h
  have hkeys : List.Pairwise (fun a b : Nat => b < a)
      (st.scores.map Prod.fst) := by
    rw [List.pairwise_map]
    exact hi.sorted
  have hlenmap : (st.scores.map Prod.fst).length = st.scores.length :=
    List.length_map _ _
  have hlen1 : 1 ≤ st.scores.length := List.length_pos.2 hne
  constructor
  · obtain ⟨u, hu, hmem⟩ := get_rank_found (le_refl 1) hlen1
    refine ⟨u, (st.scores.map Prod.fst).getD 0 0, hu, hmem, ?_⟩
    intro p hp
    have hpk : p.1 ∈ st.scores.map Prod.fst := List.mem_map.2 ⟨p, hp, rfl⟩
    obtain ⟨j, hjlt, hje⟩ := List.mem_iff_getElem.1 hpk
    have hje2 : p.1 = (st.scores.map Prod.fst).getD j 0 := by
      rw [List.getD_eq_getElem _ _ hjlt, hje]
    rw [hje2]
    rcases Nat.eq_zero_or_pos j with rfl | hj0
    · exact le_refl _
    · exact le_of_lt (pairwise_getD_lt hkeys hj0 hjlt)
  · intro k hk1 hk2
    obtain ⟨u1, hu1, hm1⟩ := @get_rank_found st k hk1 (by omega)
    obtain ⟨u2, hu2, hm2⟩ :=
      @get_rank_found st (k + 1) (by omega) (by omega)
    refine ⟨u1, _, u2, _, hu1, hu2, ?_⟩
    have hidx : k + 1 - 1 = k := by omega
    rw [hidx]
    exact pairwise_getD_lt hkeys (by omega : k - 1 < k) (by omega)

theorem rank_ordering_witness :
    Reachable exampleState2 ∧ exampleState2.scores ≠ [] ∧
      ((∃ u s, ScoresServer.get_rank exampleState2 1 =
            RankOutcome.found u s ∧
          (s, u) ∈ exampleState2.scores ∧
          ∀ p ∈ exampleState2.scores, p.1 ≤ s) ∧
        ∀ k : Nat, 1 ≤ k → k + 1 ≤ exampleState2.scores.length →
          ∃ u1 s1 u2 s2,
            ScoresServer.get_rank exampleState2 (k : Int) =
                RankOutcome.found u1 s1 ∧
              ScoresServer.get_rank exampleState2 ((k + 1 : Nat) : Int) =
                RankOutcome.found u2 s2 ∧
              s2 < s1) :=
  ⟨exampleState2_reachable, by decide,
    rank_ordering exampleState2 exampleState2_reachable (by decide)⟩
